import Mathlib

/-!
Verification of the chapter-extraction core of `bible_parser.py`.

The embedding models the two core functions of the source file:

* `clean_text` (the Markup Normalizer): strips `sup` subtrees, strips
  `span.chapternum` subtrees, replaces `i`/`em` elements by their text
  wrapped in asterisks, extracts the plain text, collapses every run of
  two or more whitespace characters into a single space
  (`re.sub(r"\s{2,}", " ", text)`) and strips leading/trailing
  whitespace.

* `parse_chapter` (the Chapter Extractor): walks the nodes selected by
  the CSS selector `.passage-content .text, h3 .text` in document
  order and classifies each node as a subtitle (a `span` whose direct
  parent is an `h3`), an explicit verse (the node contains a
  `.versenum` descendant), the implicit first verse (no marker seen
  yet), or continuation text merged into the last verse.

HTML documents are modelled at the level of the parsed node tree (the
`BeautifulSoup` result): an ordered tree of elements with tag name,
class list and children, and text leaves.  The selection, cleaning and
classification logic is translated from the source line by line.
-/

mutual
/-- A parsed markup node: a text leaf or an element with a tag name, a
class list and an ordered list of children.  `NodeList` is the spine of
the child list (a mutual inductive so that all functions below are
structurally recursive). -/
inductive Node where
  | text (s : String)
  | elem (tag : String) (classes : List String) (children : NodeList)
deriving DecidableEq

/-- The spine of an ordered child list of parsed markup nodes. -/
inductive NodeList where
  | nil
  | cons (n : Node) (rest : NodeList)
deriving DecidableEq
end

/-- Convert an ordinary `List Node` into the `NodeList` spine. -/
def NodeList.ofList : List Node → NodeList
  | [] => .nil
  | n :: rest => .cons n (NodeList.ofList rest)

/-- The whitespace class used by the source's `re.sub(r"\s{2,}", " ", ...)`
and `str.strip()` (the ASCII core of Python's whitespace class). -/
def pySpace (c : Char) : Bool :=
  c == ' ' || c == '\t' || c == '\n' || c == '\r' || c == '\x0b' || c == '\x0c'

/-- One left-to-right pass implementing `re.sub(r"\s{2,}", " ", text)`:
every maximal run of two or more whitespace characters becomes a single
space, a lone whitespace character is kept as it is.  The flag records
that we are inside a run whose single replacement space has already been
emitted. -/
def collapseGo : Bool → List Char → List Char
  | _, [] => []
  | inRun, c :: rest =>
    if pySpace c then
      if inRun then collapseGo true rest
      else
        match rest with
        | [] => [c]
        | c2 :: _ =>
          if pySpace c2 then ' ' :: collapseGo true rest
          else c :: collapseGo false rest
    else c :: collapseGo false rest

/-- `re.sub(r"\s{2,}", " ", text)` on a character list. -/
def collapseWs (l : List Char) : List Char := collapseGo false l

/-- Remove trailing whitespace (the right half of Python's `str.strip()`). -/
def rstripL : List Char → List Char
  | [] => []
  | c :: rest =>
    match rstripL rest with
    | [] => if pySpace c then [] else [c]
    | r => c :: r

/-- Python's `str.strip()` on a character list: drop leading and trailing
whitespace. -/
def stripL (l : List Char) : List Char := rstripL (l.dropWhile pySpace)

/-- Python's `str.strip()` on a string. -/
def pyStrip (s : String) : String := String.mk (stripL s.data)

/-- `True` iff the list contains two adjacent whitespace characters. -/
def hasDouble : List Char → Bool
  | c1 :: c2 :: rest => (pySpace c1 && pySpace c2) || hasDouble (c2 :: rest)
  | _ => false

/-- `True` iff the list starts with a whitespace character. -/
def leadingWs : List Char → Bool
  | [] => false
  | c :: _ => pySpace c

/-- `True` iff the list ends with a whitespace character. -/
def trailingWs : List Char → Bool
  | [] => false
  | [c] => pySpace c
  | _ :: rest => trailingWs rest

mutual
/-- `node.get_text()`: concatenation of all text leaves below the node
in document order. -/
def getTextN : Node → String
  | .text s => s
  | .elem _ _ cs => getTextL cs

/-- `soup.get_text()` over a child list. -/
def getTextL : NodeList → String
  | .nil => ""
  | .cons n rest => getTextN n ++ getTextL rest
end

mutual
/-- `tag.get_text(strip=True)`: concatenation of all text leaves, each
stripped of leading/trailing whitespace. -/
def getTextStripN : Node → String
  | .text s => pyStrip s
  | .elem _ _ cs => getTextStripL cs

/-- `get_text(strip=True)` over a child list. -/
def getTextStripL : NodeList → String
  | .nil => ""
  | .cons n rest => getTextStripN n ++ getTextStripL rest
end

/-- `for tag in soup.find_all("sup"): tag.decompose()` — delete every
`sup` element together with its whole subtree. -/
def removeSupL : NodeList → NodeList
  | .nil => .nil
  | .cons (.text s) rest => .cons (.text s) (removeSupL rest)
  | .cons (.elem t cls cs) rest =>
    if t = "sup" then removeSupL rest
    else .cons (.elem t cls (removeSupL cs)) (removeSupL rest)

/-- `for tag in soup.find_all("span", class_="chapternum"): tag.decompose()`
— delete every `span` element carrying the class `chapternum`, with its
subtree. -/
def removeChapternumL : NodeList → NodeList
  | .nil => .nil
  | .cons (.text s) rest => .cons (.text s) (removeChapternumL rest)
  | .cons (.elem t cls cs) rest =>
    if t = "span" ∧ "chapternum" ∈ cls then removeChapternumL rest
    else .cons (.elem t cls (removeChapternumL cs)) (removeChapternumL rest)

/-- `for tag in soup.find_all(["i", "em"]): tag.replace_with(f"*{tag.get_text()}*")`
— replace every outermost `i`/`em` element by its plain text wrapped in
asterisks (the outermost one is replaced first in document order, so
nested emphasis inside it is flattened without extra markers). -/
def replaceEmL : NodeList → NodeList
  | .nil => .nil
  | .cons (.text s) rest => .cons (.text s) (replaceEmL rest)
  | .cons (.elem t cls cs) rest =>
    if t = "i" ∨ t = "em" then .cons (.text ("*" ++ getTextL cs ++ "*")) (replaceEmL rest)
    else .cons (.elem t cls (replaceEmL cs)) (replaceEmL rest)

/-- `clean_text` from the source: decompose `sup` and `span.chapternum`
subtrees, replace `i`/`em` by `*text*`, extract the plain text, collapse
whitespace runs and strip.  The argument is the parsed fragment. -/
def clean_text (frag : NodeList) : String :=
  String.mk (stripL (collapseWs (getTextL (replaceEmL (removeChapternumL (removeSupL frag)))).data))

/-- A node returned by `soup.select(".passage-content .text, h3 .text")`,
together with the tag name of its direct parent (`"[document]"` for a
top-level node, as in BeautifulSoup). -/
structure SelNode where
  tag : String
  classes : List String
  children : NodeList
  parentTag : String
deriving DecidableEq

/-- The element node a `SelNode` stands for. -/
def SelNode.toNode (n : SelNode) : Node := .elem n.tag n.classes n.children

/-- Walker implementing `soup.select(".passage-content .text, h3 .text")`:
emit, in document order and without duplicates, every element whose
class list contains `text` and that has a proper ancestor with class
`passage-content` or a proper ancestor tagged `h3`.  `pc` and `h3`
record whether such ancestors exist above the current list; `parent` is
the tag of the direct parent of the current list's nodes. -/
def selectAux (pc h3 : Bool) (parent : String) : NodeList → List SelNode
  | .nil => []
  | .cons (.text _) rest => selectAux pc h3 parent rest
  | .cons (.elem t cls cs) rest =>
    (if "text" ∈ cls ∧ (pc = true ∨ h3 = true) then [⟨t, cls, cs, parent⟩] else [])
      ++ selectAux (pc || decide ("passage-content" ∈ cls)) (h3 || decide (t = "h3")) t cs
      ++ selectAux pc h3 parent rest

/-- The node sequence the extractor's `for` loop runs over. -/
def selectTargets (doc : NodeList) : List SelNode :=
  selectAux false false "[document]" doc

/-- `element.select_one(".versenum")`: the first descendant element (in
document order, the element itself excluded) whose class list contains
`versenum`. -/
def findVersenumL : NodeList → Option Node
  | .nil => none
  | .cons (.text _) rest => findVersenumL rest
  | .cons (.elem t cls cs) rest =>
    if "versenum" ∈ cls then some (.elem t cls cs)
    else
      match findVersenumL cs with
      | some n => some n
      | none => findVersenumL rest

/-- One output unit: a section subtitle or a verse. -/
inductive Element where
  | subtitle (text : String)
  | verse (verse_number : String) (text : String)
deriving Repr, DecidableEq

/-- The extractor's loop state: the output sequence built so far and the
`first_verse_found` flag. -/
structure PState where
  elements : List Element
  first_verse_found : Bool
deriving Repr, DecidableEq

/-- The test `element.name == "span" and element.parent.name == "h3"`
guarding the subtitle branch. -/
def isHeadingSel (n : SelNode) : Bool :=
  decide (n.tag = "span") && decide (n.parentTag = "h3")

/-- `re.sub(f"^{re.escape(verse_number)}", "", cleaned_text)`: delete the
verse-number string from the start of the cleaned text when it is a
prefix of it, otherwise leave the text unchanged. -/
def subVerseNum (vn : String) (s : String) : String :=
  if vn.data.isPrefixOf s.data then String.mk (s.data.drop vn.data.length) else s

/-- `first_verse_found` after processing one node: a heading leaves the
flag alone, every other selected node leaves the loop with the flag set
(explicit marker, implicit first verse, and continuation all have
`first_verse_found = true` afterwards). -/
def nextFvf (fvf : Bool) (n : SelNode) : Bool :=
  if isHeadingSel n then fvf else true

/-- The body of the extractor's `for` loop, processing one selected node:
subtitle branch, explicit-verse branch, implicit-first-verse branch, and
the continuation branch that appends `" " + cleaned` to the last verse
in place (or silently drops the text when the last element is not a
verse). -/
def stStep (st : PState) (n : SelNode) : PState :=
  if isHeadingSel n then
    { st with elements := st.elements ++ [.subtitle (clean_text (.cons n.toNode .nil))] }
  else
    let cleaned := clean_text (.cons n.toNode .nil)
    match findVersenumL n.children with
    | some vt =>
      let vn := getTextStripN vt
      { elements := st.elements ++ [.verse vn (pyStrip (subVerseNum vn cleaned))],
        first_verse_found := true }
    | none =>
      if st.first_verse_found = false then
        { elements := st.elements ++ [.verse "1" (pyStrip cleaned)],
          first_verse_found := true }
      else
        match st.elements.getLast? with
        | some (.verse v t) =>
          { st with elements := st.elements.dropLast ++ [.verse v (t ++ " " ++ cleaned)] }
        | _ => st

/-- `parse_chapter` from the source: run the loop over the selected
nodes, starting from the empty sequence with `first_verse_found = False`,
and return the accumulated element sequence.  (The `verbose` branch only
prints and does not affect the returned value.) -/
def parse_chapter (doc : NodeList) : List Element :=
  (List.foldl stStep ⟨[], false⟩ (selectTargets doc)).elements

/-- How often the implicit-first-verse branch (`elif not first_verse_found`)
fires while processing the given node sequence from the given flag state;
the flag evolves exactly as in `stStep` (see `stStep_first_verse_found`). -/
def implicitCount : Bool → List SelNode → Nat
  | _, [] => 0
  | fvf, n :: rest =>
    if isHeadingSel n then implicitCount fvf rest
    else if (findVersenumL n.children).isSome then implicitCount true rest
    else if fvf then implicitCount true rest
    else 1 + implicitCount true rest

/-- Prepending a character that cannot form a whitespace pair with the
head keeps the list free of adjacent whitespace pairs. -/
theorem hasDouble_cons_false {c : Char} {L : List Char}
    (h1 : pySpace c = false ∨ leadingWs L = false)
    (h2 : hasDouble L = false) : hasDouble (c :: L) = false := by
  cases L with
  | nil => rfl
  | cons d t =>
    simp only [hasDouble, Bool.or_eq_false_iff, Bool.and_eq_false_iff]
    exact ⟨h1.imp id (fun h => by simpa [leadingWs] using h), h2⟩

/-- A list with no adjacent whitespace pair keeps that property after
dropping its head. -/
theorem hasDouble_tail {c : Char} {L : List Char}
    (h : hasDouble (c :: L) = false) : hasDouble L = false := by
  cases L with
  | nil => rfl
  | cons d t =>
    simp only [hasDouble, Bool.or_eq_false_iff] at h
    exact h.2

/-- In a list with no adjacent whitespace pair, a whitespace head is
followed by a non-whitespace character (or nothing). -/
theorem hasDouble_head {c : Char} {L : List Char}
    (h : hasDouble (c :: L) = false) (hc : pySpace c = true) :
    leadingWs L = false := by
  cases L with
  | nil => rfl
  | cons d t =>
    simp only [hasDouble, Bool.or_eq_false_iff, Bool.and_eq_false_iff] at h
    rcases h.1 with h1 | h1
    · exact absurd hc (by simp [h1])
    · simpa [leadingWs] using h1

/-- The collapse pass never emits a leading whitespace character while it
is inside an already-replaced run. -/
theorem leadingWs_collapseGo_true (l : List Char) :
    leadingWs (collapseGo true l) = false := by
  induction l with
  | nil => rfl
  | cons c rest ih =>
    by_cases hc : pySpace c = true
    · simpa [collapseGo, hc] using ih
    · simp [collapseGo, Bool.not_eq_true] at hc
      simp [collapseGo, hc, leadingWs]

/-- The collapse pass keeps a non-whitespace head in place. -/
theorem leadingWs_collapseGo_false {l : List Char} (h : leadingWs l = false) :
    leadingWs (collapseGo false l) = false := by
  cases l with
  | nil => rfl
  | cons c rest =>
    simp only [leadingWs] at h
    simp [collapseGo, h, leadingWs]

/-- The output of the whitespace-collapse pass contains no two adjacent
whitespace characters. -/
theorem hasDouble_collapseGo (l : List Char) :
    ∀ b, hasDouble (collapseGo b l) = false := by
  induction l with
  | nil => intro b; rfl
  | cons c rest ih =>
    intro b
    by_cases hc : pySpace c = true
    · cases b with
      | true =>
        have e : collapseGo true (c :: rest) = collapseGo true rest := by
          simp [collapseGo, hc]
        rw [e]; exact ih true
      | false =>
        cases rest with
        | nil => simp [collapseGo, hc, hasDouble]
        | cons c2 r2 =>
          by_cases hc2 : pySpace c2 = true
          · have e : collapseGo false (c :: c2 :: r2) = ' ' :: collapseGo true (c2 :: r2) := by
              simp [collapseGo, hc, hc2]
            rw [e]
            exact hasDouble_cons_false (Or.inr (leadingWs_collapseGo_true (c2 :: r2)))
              (ih true)
          · simp only [Bool.not_eq_true] at hc2
            have e : collapseGo false (c :: c2 :: r2) = c :: collapseGo false (c2 :: r2) := by
              simp [collapseGo, hc, hc2]
            rw [e]
            exact hasDouble_cons_false
              (Or.inr (leadingWs_collapseGo_false (by simp [leadingWs, hc2])))
              (ih false)
    · simp only [Bool.not_eq_true] at hc
      have e : collapseGo b (c :: rest) = c :: collapseGo false rest := by
        simp [collapseGo, hc]
      rw [e]
      exact hasDouble_cons_false (Or.inl hc) (ih false)

/-- On a list with no adjacent whitespace pair the collapse pass is the
identity. -/
theorem collapseGo_id {l : List Char} (h : hasDouble l = false) :
    collapseGo false l = l := by
  induction l with
  | nil => rfl
  | cons c rest ih =>
    by_cases hc : pySpace c = true
    · cases rest with
      | nil => simp [collapseGo, hc]
      | cons c2 r2 =>
        have hc2 : pySpace c2 = false := by
          have := hasDouble_head h hc
          simpa [leadingWs] using this
        have e : collapseGo false (c :: c2 :: r2) = c :: collapseGo false (c2 :: r2) := by
          simp [collapseGo, hc, hc2]
        rw [e]
        exact congrArg (c :: ·) (ih (hasDouble_tail h))
    · simp only [Bool.not_eq_true] at hc
      have e : collapseGo false (c :: rest) = c :: collapseGo false rest := by
        simp [collapseGo, hc]
      rw [e]
      exact congrArg (c :: ·) (ih (hasDouble_tail h))

/-- After dropping leading whitespace, the list does not start with a
whitespace character. -/
theorem leadingWs_dropWhile (l : List Char) :
    leadingWs (l.dropWhile pySpace) = false := by
  induction l with
  | nil => rfl
  | cons c rest ih =>
    by_cases hc : pySpace c = true
    · simpa [List.dropWhile_cons, hc] using ih
    · simp only [Bool.not_eq_true] at hc
      simp [List.dropWhile_cons, hc, leadingWs]

/-- Dropping leading whitespace from a list that has none is a no-op. -/
theorem dropWhile_id {l : List Char} (h : leadingWs l = false) :
    l.dropWhile pySpace = l := by
  cases l with
  | nil => rfl
  | cons c rest =>
    simp only [leadingWs] at h
    simp [List.dropWhile_cons, h]

/-- Dropping leading whitespace preserves freedom from adjacent
whitespace pairs. -/
theorem hasDouble_dropWhile {l : List Char} (h : hasDouble l = false) :
    hasDouble (l.dropWhile pySpace) = false := by
  induction l with
  | nil => exact h
  | cons c rest ih =>
    by_cases hc : pySpace c = true
    · simpa [List.dropWhile_cons, hc] using ih (hasDouble_tail h)
    · simp only [Bool.not_eq_true] at hc
      simpa [List.dropWhile_cons, hc] using h

/-- `rstripL` either deletes the whole list or keeps its head. -/
theorem rstripL_shape (c : Char) (rest : List Char) :
    rstripL (c :: rest) = [] ∨ ∃ r, rstripL (c :: rest) = c :: r := by
  simp only [rstripL]
  cases h : rstripL rest with
  | nil =>
    by_cases hc : pySpace c = true
    · exact Or.inl (by simp [hc])
    · simp only [Bool.not_eq_true] at hc
      exact Or.inr ⟨[], by simp [hc]⟩
  | cons d t => exact Or.inr ⟨d :: t, rfl⟩

/-- Removing trailing whitespace keeps a non-whitespace head in place. -/
theorem leadingWs_rstripL {l : List Char} (h : leadingWs l = false) :
    leadingWs (rstripL l) = false := by
  cases l with
  | nil => rfl
  | cons c rest =>
    simp only [leadingWs] at h
    rcases rstripL_shape c rest with e | ⟨r, e⟩
    · simp [e, leadingWs]
    · simp [e, leadingWs, h]

/-- `rstripL` leaves no trailing whitespace. -/
theorem trailingWs_rstripL (l : List Char) :
    trailingWs (rstripL l) = false := by
  induction l with
  | nil => rfl
  | cons c rest ih =>
    simp only [rstripL]
    cases h : rstripL rest with
    | nil =>
      by_cases hc : pySpace c = true
      · simp [hc, trailingWs]
      · simp only [Bool.not_eq_true] at hc
        simp [hc, trailingWs]
    | cons d t =>
      rw [h] at ih
      simpa [trailingWs] using ih

/-- `rstripL` on a list without trailing whitespace is a no-op. -/
theorem rstripL_id {l : List Char} (h : trailingWs l = false) :
    rstripL l = l := by
  induction l with
  | nil => rfl
  | cons c rest ih =>
    cases rest with
    | nil =>
      simp only [trailingWs] at h
      simp [rstripL, h]
    | cons d t =>
      have h2 : trailingWs (d :: t) = false := by
        simpa [trailingWs] using h
      have e := ih h2
      show (match rstripL (d :: t) with
            | [] => if pySpace c = true then [] else [c]
            | r => c :: r) = c :: d :: t
      rw [e]

/-- Removing trailing whitespace preserves freedom from adjacent
whitespace pairs. -/
theorem hasDouble_rstripL {l : List Char} (h : hasDouble l = false) :
    hasDouble (rstripL l) = false := by
  induction l with
  | nil => exact h
  | cons c rest ih =>
    simp only [rstripL]
    cases hr : rstripL rest with
    | nil =>
      by_cases hc : pySpace c = true
      · simp [hc, hasDouble]
      · simp only [Bool.not_eq_true] at hc
        simp [hc, hasDouble]
    | cons d t =>
      have ih2 : hasDouble (d :: t) = false := by
        rw [← hr]; exact ih (hasDouble_tail h)
      cases rest with
      | nil => simp [rstripL] at hr
      | cons d0 t0 =>
        have hd : d = d0 := by
          rcases rstripL_shape d0 t0 with e | ⟨r, e⟩
          · rw [e] at hr; cases hr
          · rw [e] at hr
            exact (List.cons.injEq .. ▸ hr).1.symm
        refine hasDouble_cons_false ?_ ih2
        by_cases hc : pySpace c = true
        · right
      
          have : leadingWs (d0 :: t0) = false := hasDouble_head h hc
          simpa [leadingWs, hd] using this
        · left; simpa using hc

/-- The full strip leaves no leading whitespace. -/
theorem leadingWs_stripL (l : List Char) : leadingWs (stripL l) = false :=
  leadingWs_rstripL (leadingWs_dropWhile l)

/-- The full strip leaves no trailing whitespace. -/
theorem trailingWs_stripL (l : List Char) : trailingWs (stripL l) = false :=
  trailingWs_rstripL _

/-- Stripping a list with no leading and no trailing whitespace is a
no-op. -/
theorem stripL_id {l : List Char} (h1 : leadingWs l = false)
    (h2 : trailingWs l = false) : stripL l = l := by
  unfold stripL
  rw [dropWhile_id h1, rstripL_id h2]

/-- Stripping is idempotent. -/
theorem stripL_idem (l : List Char) : stripL (stripL l) = stripL l :=
  stripL_id (leadingWs_stripL l) (trailingWs_stripL l)

/-- Stripping preserves freedom from adjacent whitespace pairs. -/
theorem hasDouble_stripL {l : List Char} (h : hasDouble l = false) :
    hasDouble (stripL l) = false :=
  hasDouble_rstripL (hasDouble_dropWhile h)

/-- The Normalizer's output never contains two adjacent whitespace
characters. -/
theorem hasDouble_clean_text (frag : NodeList) :
    hasDouble (clean_text frag).data = false :=
  hasDouble_stripL (hasDouble_collapseGo _ false)

/-- The Normalizer's output never starts with whitespace. -/
theorem leadingWs_clean_text (frag : NodeList) :
    leadingWs (clean_text frag).data = false :=
  leadingWs_stripL _

/-- The Normalizer's output never ends with whitespace. -/
theorem trailingWs_clean_text (frag : NodeList) :
    trailingWs (clean_text frag).data = false :=
  trailingWs_stripL _

/-- Collapsing whitespace runs in an already-normalized text is a no-op. -/
theorem collapseWs_clean_text (frag : NodeList) :
    collapseWs (clean_text frag).data = (clean_text frag).data :=
  collapseGo_id (hasDouble_clean_text frag)

/-- Stripping an already-normalized text is a no-op. -/
theorem pyStrip_clean_text (frag : NodeList) :
    pyStrip (clean_text frag) = clean_text frag :=
  congrArg String.mk (stripL_idem _)

/-- The tree `html.parser` produces for the input string
`"a &lt;b&gt; c"`: a single text node with the entities decoded.  (The
entity decoding is the external parser's documented behavior; the tree
is its result at this one concrete string.) -/
def entityDoc : NodeList := .cons (.text "a <b> c") .nil

/-- The tree `html.parser` produces for the string `"a <b> c"` — the
text `clean_text` extracts from `entityDoc`, re-entering the parser:
`<b>` now opens a real element, implicitly closed at end of input, with
the text `" c"` as its child. -/
def reparsedEntityDoc : NodeList :=
  .cons (.text "a ") (.cons (.elem "b" [] (.cons (.text " c") .nil)) .nil)

/-- C2 counterexample: `clean_text` is not idempotent on every input
string, because `get_text` decodes entities whose decoded forms re-parse
as markup.  For the input `"a &lt;b&gt; c"` the first pass outputs
`"a <b> c"`; feeding that string back through the parser and
`clean_text` yields `"a c"`, not the same text. -/
theorem claim_C2_counterexample :
    clean_text entityDoc = "a <b> c" ∧
    clean_text reparsedEntityDoc = "a c" ∧
    clean_text reparsedEntityDoc ≠ clean_text entityDoc :=
  ⟨rfl, rfl, by decide⟩

/-- C2 (amended): the Normalizer is idempotent on output that re-enters
the parser as plain text.  For every fragment, re-normalizing the output
of `clean_text` as a single text node yields the same text — the
whitespace collapse and strip are no-ops on already-normalized text.
(Idempotence fails in general only when the output contains
markup-significant characters, which the re-parse turns back into
elements; see the counterexample.) -/
theorem claim_C2_clean_text_idempotent (frag : NodeList) :
    clean_text (.cons (.text (clean_text frag)) .nil) = clean_text frag := by
  have e1 : clean_text (.cons (.text (clean_text frag)) .nil)
      = String.mk (stripL (collapseWs (clean_text frag).data)) := by
    simp [clean_text, removeSupL, removeChapternumL, replaceEmL, getTextL, getTextN,
      String.append_empty]
  rw [e1, collapseWs_clean_text]
  exact pyStrip_clean_text frag

/-- C9: for every input fragment, the Normalizer's output contains no
run of two or more consecutive whitespace characters and carries no
leading or trailing whitespace. -/
theorem claim_C9_clean_text_whitespace (frag : NodeList) :
    hasDouble (clean_text frag).data = false ∧
    leadingWs (clean_text frag).data = false ∧
    trailingWs (clean_text frag).data = false :=
  ⟨hasDouble_clean_text frag, leadingWs_clean_text frag, trailingWs_clean_text frag⟩

/-- The `first_verse_found` flag after one loop iteration: a heading
leaves it unchanged, every other selected node leaves it set. -/
theorem stStep_first_verse_found (st : PState) (n : SelNode) :
    (stStep st n).first_verse_found = nextFvf st.first_verse_found n := by
  unfold stStep nextFvf
  by_cases hh : isHeadingSel n = true
  · simp [hh]
  · simp only [Bool.not_eq_true] at hh
    simp only [hh, Bool.false_eq_true, if_false]
    cases hv : findVersenumL n.children with
    | some vt => simp
    | none =>
      by_cases hf : st.first_verse_found = false
      · simp [hf]
      · simp only [Bool.not_eq_false] at hf
        simp only [hf, Bool.true_eq_false, if_false]
        cases hl : st.elements.getLast? with
        | none => simp [hf]
        | some e => cases e <;> simp [hf]

/-- Once `first_verse_found` is set, the implicit-first-verse branch can
never fire again. -/
theorem implicitCount_true (l : List SelNode) : implicitCount true l = 0 := by
  induction l with
  | nil => rfl
  | cons n rest ih =>
    unfold implicitCount
    by_cases hh : isHeadingSel n = true
    · simpa [hh] using ih
    · simp only [Bool.not_eq_true] at hh
      by_cases hv : (findVersenumL n.children).isSome = true
      · simpa [hh, hv] using ih
      · simp only [Bool.not_eq_true] at hv
        simpa [hh, hv] using ih

/-- The implicit-first-verse branch fires at most once in any run. -/
theorem implicitCount_le_one (l : List SelNode) :
    ∀ b, implicitCount b l ≤ 1 := by
  induction l with
  | nil => intro b; simp [implicitCount]
  | cons n rest ih =>
    intro b
    unfold implicitCount
    by_cases hh : isHeadingSel n = true
    · simpa [hh] using ih b
    · simp only [Bool.not_eq_true] at hh
      by_cases hv : (findVersenumL n.children).isSome = true
      · simpa [hh, hv] using ih true
      · simp only [Bool.not_eq_true] at hv
        cases b with
        | true => simpa [hh, hv] using ih true
        | false => simp [hh, hv, implicitCount_true]

/-- One loop iteration preserves the invariant that the output sequence
starts with a verse numbered "1" and that the flag is set. -/
theorem stStep_head_inv {st : PState} (n : SelNode)
    (hf : st.first_verse_found = true)
    (hh : ∃ t r, st.elements = Element.verse "1" t :: r) :
    (stStep st n).first_verse_found = true ∧
    ∃ t r, (stStep st n).elements = Element.verse "1" t :: r := by
  obtain ⟨t, r, he⟩ := hh
  by_cases hhead : isHeadingSel n = true
  · have e : stStep st n
        = { st with elements := st.elements ++ [.subtitle (clean_text (.cons n.toNode .nil))] } := by
      unfold stStep; simp [hhead]
    rw [e]
    exact ⟨hf, t, r ++ [Element.subtitle (clean_text (.cons n.toNode .nil))], by simp [he]⟩
  · simp only [Bool.not_eq_true] at hhead
    cases hv : findVersenumL n.children with
    | some vt =>
      have e : stStep st n
          = { elements := st.elements
                ++ [Element.verse (getTextStripN vt)
                      (pyStrip (subVerseNum (getTextStripN vt) (clean_text (.cons n.toNode .nil))))],
              first_verse_found := true } := by
        unfold stStep; simp [hhead, hv]
      rw [e]
      exact ⟨rfl, t,
        r ++ [Element.verse (getTextStripN vt)
          (pyStrip (subVerseNum (getTextStripN vt) (clean_text (.cons n.toNode .nil))))],
        by simp [he]⟩
    | none =>
      cases hl : st.elements.getLast? with
      | none =>
        rw [he, List.getLast?_eq_none_iff] at hl
        cases hl
      | some x =>
        cases x with
        | subtitle s =>
          have e : stStep st n = st := by
            unfold stStep; simp [hhead, hv, hf, hl]
          rw [e]
          exact ⟨hf, t, r, he⟩
        | verse v tv =>
          have e : stStep st n
              = { st with elements := st.elements.dropLast
                    ++ [Element.verse v (tv ++ " " ++ clean_text (.cons n.toNode .nil))] } := by
            unfold stStep; simp [hhead, hv, hf, hl]
          rw [e]
          refine ⟨hf, ?_⟩
          cases r with
          | nil =>
            rw [he, List.getLast?_singleton, Option.some.injEq] at hl
            injection hl with h1 h2
            subst h1; subst h2
            exact ⟨t ++ " " ++ clean_text (.cons n.toNode .nil), [], by simp [he]⟩
          | cons e2 r2 =>
            exact ⟨t, (e2 :: r2).dropLast
              ++ [Element.verse v (tv ++ " " ++ clean_text (.cons n.toNode .nil))],
              by simp [he, List.dropLast_cons₂]⟩

/-- The whole loop preserves the head-verse invariant. -/
theorem foldl_head_inv (sel : List SelNode) :
    ∀ st : PState, st.first_verse_found = true →
    (∃ t r, st.elements = Element.verse "1" t :: r) →
    (List.foldl stStep st sel).first_verse_found = true ∧
    ∃ t r, (List.foldl stStep st sel).elements = Element.verse "1" t :: r := by
  induction sel with
  | nil => exact fun st hf hh => ⟨hf, hh⟩
  | cons n rest ih =>
    intro st hf hh
    have h1 := stStep_head_inv n hf hh
    simpa [List.foldl_cons] using ih (stStep st n) h1.1 h1.2

/-- C5: when a marker-less, non-heading continuation node is processed
with `first_verse_found` set and the last element a verse, the loop body
appends a single space plus the node's cleaned text to that last verse's
text in place, and the length of the output sequence is unchanged. -/
theorem claim_C5_continuation_merge (elems : List Element) (v t : String) (n : SelNode)
    (hh : isHeadingSel n = false) (hv : findVersenumL n.children = none) :
    stStep ⟨elems ++ [Element.verse v t], true⟩ n
      = ⟨elems ++ [Element.verse v (t ++ " " ++ clean_text (.cons n.toNode .nil))], true⟩ ∧
    (stStep ⟨elems ++ [Element.verse v t], true⟩ n).elements.length
      = (elems ++ [Element.verse v t]).length := by
  have e : stStep ⟨elems ++ [Element.verse v t], true⟩ n
      = ⟨elems ++ [Element.verse v (t ++ " " ++ clean_text (.cons n.toNode .nil))], true⟩ := by
    unfold stStep
    simp [hh, hv, List.getLast?_concat, List.dropLast_concat]
  exact ⟨e, by rw [e]; simp⟩

/-- Witness for C5: appending continuation text "and God said" to verse
3 "In the beginning" yields the merged verse, with a single separating
space. -/
theorem claim_C5_witness :
    stStep ⟨[Element.verse "3" "In the beginning"], true⟩
        ⟨"span", ["text"], .cons (.text "and God said") .nil, "div"⟩
      = ⟨[Element.verse "3" "In the beginning and God said"], true⟩ := by
  have h := claim_C5_continuation_merge [] "3" "In the beginning"
    ⟨"span", ["text"], .cons (.text "and God said") .nil, "div"⟩ rfl rfl
  exact h.1.trans (by decide)

/-- C6: when the selected node contains a verse-number marker, the loop
body appends a new verse whose number is the marker's trimmed text and
whose text is the cleaned text with the marker string deleted from its
start when it is a prefix (then stripped); when the marker string is not
a prefix of the cleaned text, the verse text is the cleaned text
unchanged. -/
theorem claim_C6_explicit_marker (st : PState) (n : SelNode) (vt : Node)
    (hh : isHeadingSel n = false) (hv : findVersenumL n.children = some vt) :
    stStep st n
      = ⟨st.elements ++ [Element.verse (getTextStripN vt)
           (pyStrip (subVerseNum (getTextStripN vt) (clean_text (.cons n.toNode .nil))))],
         true⟩ ∧
    ((getTextStripN vt).data.isPrefixOf (clean_text (.cons n.toNode .nil)).data = true →
      pyStrip (subVerseNum (getTextStripN vt) (clean_text (.cons n.toNode .nil)))
        = pyStrip (String.mk
            ((clean_text (.cons n.toNode .nil)).data.drop (getTextStripN vt).data.length))) ∧
    ((getTextStripN vt).data.isPrefixOf (clean_text (.cons n.toNode .nil)).data = false →
      pyStrip (subVerseNum (getTextStripN vt) (clean_text (.cons n.toNode .nil)))
        = clean_text (.cons n.toNode .nil)) := by
  refine ⟨by unfold stStep; simp [hh, hv], ?_, ?_⟩
  · intro hp; unfold subVerseNum; rw [hp]; simp
  · intro hp; unfold subVerseNum; rw [hp]; simp
    exact pyStrip_clean_text _

/-- Witness for C6: the explicit marker "1" is taken as the verse
number and stripped from the front of the cleaned text. -/
theorem claim_C6_witness :
    stStep ⟨[], false⟩
        ⟨"span", ["text"],
          .cons (.elem "sup" [] (.cons (.text "a") .nil))
            (.cons (.elem "span" ["versenum"] (.cons (.text "1") .nil))
              (.cons (.text "In the beginning...") .nil)), "div"⟩
      = ⟨[Element.verse "1" "In the beginning..."], true⟩ := by
  have h := claim_C6_explicit_marker ⟨[], false⟩
    ⟨"span", ["text"],
      .cons (.elem "sup" [] (.cons (.text "a") .nil))
        (.cons (.elem "span" ["versenum"] (.cons (.text "1") .nil))
          (.cons (.text "In the beginning...") .nil)), "div"⟩
    (.elem "span" ["versenum"] (.cons (.text "1") .nil)) rfl rfl
  exact h.1.trans (by decide)

/-- C7: a marker-less continuation node processed with the flag set
while the one and only element so far is a subtitle is silently dropped:
the state is returned unchanged.  (Starting from the empty initial
state such a state never actually arises — the flag is only ever set
together with appending a verse — but the loop body does exactly this
on that state.) -/
theorem claim_C7_drop_after_lone_subtitle (s : String) (n : SelNode)
    (hh : isHeadingSel n = false) (hv : findVersenumL n.children = none) :
    stStep ⟨[Element.subtitle s], true⟩ n = ⟨[Element.subtitle s], true⟩ := by
  unfold stStep
  simp [hh, hv]

/-- Witness for C7 at a concrete subtitle and continuation node. -/
theorem claim_C7_witness :
    stStep ⟨[Element.subtitle "Psalm of David"], true⟩
        ⟨"span", ["text"], .cons (.text "continuation text") .nil, "div"⟩
      = ⟨[Element.subtitle "Psalm of David"], true⟩ :=
  claim_C7_drop_after_lone_subtitle "Psalm of David"
    ⟨"span", ["text"], .cons (.text "continuation text") .nil, "div"⟩ rfl rfl

/-- C8: the continuation drop is governed only by the last element's
tag: with the flag set and the last element a subtitle a marker-less
node is dropped even when an earlier verse exists in the sequence, and
a marker-less step never changes any element other than the last. -/
theorem claim_C8_drop_only_last_tag (elems : List Element) (s : String) (n : SelNode)
    (hh : isHeadingSel n = false) (hv : findVersenumL n.children = none)
    (hl : elems.getLast? = some (Element.subtitle s))
    (_hverse : ∃ v t, Element.verse v t ∈ elems) :
    stStep ⟨elems, true⟩ n = ⟨elems, true⟩ ∧
    ∀ elems2 : List Element,
      (stStep ⟨elems2, true⟩ n).elements.dropLast = elems2.dropLast := by
  constructor
  · unfold stStep; simp [hh, hv, hl]
  · intro elems2
    cases hl2 : elems2.getLast? with
    | none =>
      have e : stStep ⟨elems2, true⟩ n = ⟨elems2, true⟩ := by
        unfold stStep; simp [hh, hv, hl2]
      rw [e]
    | some x =>
      cases x with
      | subtitle s2 =>
        have e : stStep ⟨elems2, true⟩ n = ⟨elems2, true⟩ := by
          unfold stStep; simp [hh, hv, hl2]
        rw [e]
      | verse v tv =>
        have e : stStep ⟨elems2, true⟩ n
            = ⟨elems2.dropLast
                ++ [Element.verse v (tv ++ " " ++ clean_text (.cons n.toNode .nil))], true⟩ := by
          unfold stStep; simp [hh, hv, hl2]
        rw [e]
        simp [List.dropLast_concat]

/-- Witness for C8: with an earlier verse present but a subtitle last,
the continuation node is dropped and the sequence left unchanged. -/
theorem claim_C8_witness :
    stStep ⟨[Element.verse "1" "In the beginning", Element.subtitle "Selah"], true⟩
        ⟨"span", ["text"], .cons (.text "lost words") .nil, "div"⟩
      = ⟨[Element.verse "1" "In the beginning", Element.subtitle "Selah"], true⟩ :=
  (claim_C8_drop_only_last_tag
    [Element.verse "1" "In the beginning", Element.subtitle "Selah"] "Selah"
    ⟨"span", ["text"], .cons (.text "lost words") .nil, "div"⟩
    rfl rfl rfl ⟨"1", "In the beginning", by decide⟩).1

/-- C4: if the first selected node carries no verse-number marker (and
is not a heading), the implicit branch assigns it verse number "1" —
the first loop step appends exactly `Verse "1" cleaned` — the implicit
branch fires exactly once over the whole run (never again for any later
marker-less node), and the first element of the final output is a verse
numbered "1", even if a later node carries an explicit marker "1". -/
theorem claim_C4_implicit_once (doc : NodeList) (n : SelNode) (rest : List SelNode)
    (hs : selectTargets doc = n :: rest)
    (hh : isHeadingSel n = false) (hv : findVersenumL n.children = none) :
    stStep ⟨[], false⟩ n
      = ⟨[Element.verse "1" (pyStrip (clean_text (.cons n.toNode .nil)))], true⟩ ∧
    implicitCount false (selectTargets doc) = 1 ∧
    ∃ t r, parse_chapter doc = Element.verse "1" t :: r := by
  have e : stStep ⟨[], false⟩ n
      = ⟨[Element.verse "1" (pyStrip (clean_text (.cons n.toNode .nil)))], true⟩ := by
    unfold stStep; simp [hh, hv]
  refine ⟨e, ?_, ?_⟩
  · rw [hs]
    unfold implicitCount
    simp [hh, hv, implicitCount_true]
  · unfold parse_chapter
    rw [hs, List.foldl_cons, e]
    exact (foldl_head_inv rest _ rfl ⟨_, [], rfl⟩).2

/-- Witness for C4: a document whose first content node is unmarked and
whose second node carries the explicit marker "1"; the implicit branch
fires exactly once and the output starts with the implicit verse. -/
theorem claim_C4_witness :
    implicitCount false (selectTargets (.cons (.elem "div" ["passage-content"]
        (.cons (.elem "span" ["text"] (.cons (.text "First words") .nil))
          (.cons (.elem "span" ["text"]
            (.cons (.elem "span" ["versenum"] (.cons (.text "1") .nil))
              (.cons (.text "later") .nil))) .nil))) .nil)) = 1 ∧
    parse_chapter (.cons (.elem "div" ["passage-content"]
        (.cons (.elem "span" ["text"] (.cons (.text "First words") .nil))
          (.cons (.elem "span" ["text"]
            (.cons (.elem "span" ["versenum"] (.cons (.text "1") .nil))
              (.cons (.text "later") .nil))) .nil))) .nil)
      = [Element.verse "1" "First words", Element.verse "1" "later"] := by
  have h := claim_C4_implicit_once
    (.cons (.elem "div" ["passage-content"]
      (.cons (.elem "span" ["text"] (.cons (.text "First words") .nil))
        (.cons (.elem "span" ["text"]
          (.cons (.elem "span" ["versenum"] (.cons (.text "1") .nil))
            (.cons (.text "later") .nil))) .nil))) .nil)
    ⟨"span", ["text"], .cons (.text "First words") .nil, "div"⟩
    [⟨"span", ["text"],
      .cons (.elem "span" ["versenum"] (.cons (.text "1") .nil))
        (.cons (.text "later") .nil), "div"⟩]
    rfl rfl rfl
  exact ⟨h.2.1, by decide⟩

/-- C3: the extractor and the normalizer are total functions of the
parsed document (no exceptions can arise in this embedding), a document
from which the selector extracts no node — in particular an empty or
malformed one — yields the empty chapter, and the normalizer applied to
the empty fragment yields the empty string. -/
theorem claim_C3_graceful_degradation (doc : NodeList) (h : selectTargets doc = []) :
    parse_chapter doc = [] ∧ clean_text .nil = "" := by
  constructor
  · unfold parse_chapter; rw [h]; rfl
  · rfl

/-- Witness for C3: a document with one empty, classless element yields
the empty chapter. -/
theorem claim_C3_witness :
    parse_chapter (.cons (.elem "div" [] .nil) .nil) = [] ∧ clean_text .nil = "" :=
  claim_C3_graceful_degradation (.cons (.elem "div" [] .nil) .nil) rfl

/-- C10: the extractor is a pure function of its input document: equal
inputs always produce equal output sequences.  (In the source,
`parse_chapter` with `verbose=False` reads no external state and mutates
none; the model is a total function.) -/
theorem claim_C10_pure_function (d1 d2 : NodeList) (h : d1 = d2) :
    parse_chapter d1 = parse_chapter d2 := by rw [h]

/-- Witness for C10 at a concrete document. -/
theorem claim_C10_witness :
    parse_chapter (.cons (.elem "p" ["passage-content"] .nil) .nil)
      = parse_chapter (.cons (.elem "p" ["passage-content"] .nil) .nil) :=
  claim_C10_pure_function (.cons (.elem "p" ["passage-content"] .nil) .nil)
    (.cons (.elem "p" ["passage-content"] .nil) .nil) rfl

/-- The exact fragment of the spec's concrete scenario:
`<h3><span class="text">Heading</span></h3><span class="text"><sup>a</sup><span class="versenum">1</span>In the beginning...</span>`,
parsed as two top-level nodes. -/
def c1frag : NodeList :=
  .cons (.elem "h3" [] (.cons (.elem "span" ["text"] (.cons (.text "Heading") .nil)) .nil))
    (.cons (.elem "span" ["text"]
      (.cons (.elem "sup" [] (.cons (.text "a") .nil))
        (.cons (.elem "span" ["versenum"] (.cons (.text "1") .nil))
          (.cons (.text "In the beginning...") .nil)))) .nil)

/-- The same fragment wrapped in a `div.passage-content` container, so
that both nodes fall inside the selector's passage-content region. -/
def c1wrapped : NodeList :=
  .cons (.elem "div" ["passage-content"] c1frag) .nil

/-- C1 counterexample: on the claim's exact fragment the extractor
returns only the subtitle, not the claimed two-element sequence: the
verse span matches neither `.passage-content .text` nor `h3 .text`
because at top level it has no passage-content or h3 ancestor, so it is
never selected. -/
theorem claim_C1_counterexample :
    parse_chapter c1frag = [Element.subtitle "Heading"] ∧
    parse_chapter c1frag
      ≠ [Element.subtitle "Heading", Element.verse "1" "In the beginning..."] :=
  ⟨rfl, by decide⟩

/-- C1 (amended): with the fragment placed inside a passage-content
container, the extractor returns exactly the claimed two-element
sequence `[Subtitle "Heading", Verse "1" "In the beginning..."]` in
that order. -/
theorem claim_C1_amended :
    parse_chapter c1wrapped
      = [Element.subtitle "Heading", Element.verse "1" "In the beginning..."] := rfl
